import Mathlib

/-!
Verification development for the isolate.py state model: a shallow embedding
of the persistent SavedState cache, the .isolated manifest emission
(to_isolated, chromium_save_isolated), the tree materialization loop
(recreate_tree) and the path-variable containment check of
CompleteState.load_isolate, together with theorems about them.

Python dicts are modelled as association lists `List (String × val)`;
dict mutation helpers (setdefault, update, del) are translated operation by
operation.  File system effects are abstracted into explicit parameters
(an `isfile` predicate, an `existingSize` map) and hashing of serialized
bytes into an abstract `hashFn` argument.
-/

/-- JSON-like values as stored in .isolated / .isolated.state documents. -/
inductive JVal where
  | null
  | bool (b : Bool)
  | num (n : Nat)
  | str (s : String)
  | list (xs : List JVal)
  | obj (kvs : List (String × JVal))

/-- Python exception classes raised by the modelled code.  In the source,
MappingError subclasses IsolatedError which subclasses ValueError
(isolated_format is not among the sources at hand; the subclass relation is
modelled from the spec's recovery rule for StateError). -/
inductive PyErr where
  | valueError
  | isolatedError
  | mappingError
  | keyError
  | assertionError

deriving instance DecidableEq for PyErr

/-- Tests whether an Except value is an error. -/
def isErr {ε α : Type} : Except ε α → Bool
  | .error _ => true
  | .ok _ => false

/-- First value bound to a key in an association list (Python dict lookup). -/
def dlookup {α : Type} : List (String × α) → String → Option α
  | [], _ => none
  | e :: rest, k => if e.1 = k then some e.2 else dlookup rest k

/-- Key membership in an association list (Python `k in dict`). -/
def hasKey {α : Type} : List (String × α) → String → Bool
  | [], _ => false
  | e :: rest, k => if e.1 = k then true else hasKey rest k

/-- String membership in a list (Python `x in list` / `x in set`). -/
def strMem : List String → String → Bool
  | [], _ => false
  | x :: rest, k => if x = k then true else strMem rest k

/-- Python `dict[k] = v`: replace the value of an existing key in place,
otherwise append the new binding at the end. -/
def dict_set {α : Type} (m : List (String × α)) (k : String) (v : α) :
    List (String × α) :=
  if hasKey m k then m.map (fun e => if e.1 = k then (k, v) else e)
  else m ++ [(k, v)]

/-- Python `dict.update(u)`: assign every binding of u in order. -/
def dict_update {α : Type} (m u : List (String × α)) : List (String × α) :=
  u.foldl (fun acc kv => dict_set acc kv.1 kv.2) m

/-- Python truthiness of an optional string: None and the empty string are
falsy. -/
def strTruthy : Option String → Bool
  | none => false
  | some s => s != ""

/-- Path separator of the modelled platform (posix). -/
def os_path_sep : String := "/"

/-- Value of sys.platform on the modelled platform. -/
def sys_platform : String := "linux2"

/-- Python `str.startswith(pfx)`. -/
def strHasPfx (pfx p : String) : Bool := pfx.data.isPrefixOf p.data

/-- posixpath.isabs. -/
def os_isabs (p : String) : Bool := "/".data.isPrefixOf p.data

/-- Splits a string at every path separator. -/
def splitPathAux : List Char → List Char → List String
  | [], acc => [String.mk acc.reverse]
  | c :: rest, acc =>
    if c = '/' then String.mk acc.reverse :: splitPathAux rest []
    else splitPathAux rest (c :: acc)

/-- Splits a path at every separator, keeping empty components. -/
def splitPath (p : String) : List String := splitPathAux p.data []

/-- Joins strings with a separator. -/
def joinStrings (sep : String) : List String → String
  | [] => ""
  | [x] => x
  | x :: y :: rest => x ++ sep ++ joinStrings sep (y :: rest)

/-- Component pass of posixpath.normpath: resolves `..` components. -/
def normpathFold (isabs : Bool) : List String → List String → List String
  | acc, [] => acc
  | acc, c :: rest =>
    if c = ".." then
      if isabs then normpathFold isabs acc.dropLast rest
      else match acc.getLast? with
        | some x => if x = ".." then normpathFold isabs (acc ++ [c]) rest
                    else normpathFold isabs acc.dropLast rest
        | none => normpathFold isabs (acc ++ [c]) rest
    else normpathFold isabs (acc ++ [c]) rest

/-- posixpath.normpath: collapses empty and `.` components and resolves
`..`. -/
def normpath (p : String) : String :=
  let isabs := os_isabs p
  let comps := (splitPath p).filter (fun c => c != "" && c != ".")
  let body := joinStrings "/" (normpathFold isabs [] comps)
  if isabs then "/" ++ body else if body = "" then "." else body

/-- posixpath.join for two components. -/
def os_path_join (a b : String) : String :=
  if os_isabs b then b
  else if a = "" then b
  else if a.data.getLast? = some '/' then a ++ b
  else a ++ "/" ++ b

/-- Non-empty components of a normalized path. -/
def pathComps (p : String) : List String :=
  (splitPath (normpath p)).filter (fun c => c != "")

/-- Drops the common leading components of two component lists. -/
def dropCommonPfx : List String → List String → (List String × List String)
  | x :: xs, y :: ys =>
    if x = y then dropCommonPfx xs ys else (x :: xs, y :: ys)
  | xs, ys => (xs, ys)

/-- posixpath.relpath for absolute arguments. -/
def relpath (path start : String) : String :=
  let r := dropCommonPfx (pathComps path) (pathComps start)
  let comps := (List.replicate r.2.length "..") ++ r.1
  if comps = [] then "." else joinStrings "/" comps

/-- Modelled from the spec: file_path.safe_relpath (not among the sources at
hand) converts an absolute path back to a path relative to a base directory;
on the modelled posix platform a relative form always exists (the source
comment notes it stays absolute only across Windows drives), so this is
os.path.relpath. -/
def safe_relpath (p base : String) : String := relpath p base

/-- Modelled from the spec: file_path.path_starts_with (not among the sources
at hand) decides whether a path resolves to a location inside the root
directory, the root itself included. -/
def path_starts_with (root p : String) : Bool :=
  let r := normpath root
  let q := normpath p
  (r = q) || (r ++ "/").data.isPrefixOf q.data

/-- Per-file metadata record: the fields of a files-dict entry of the
.isolated.state document (hash, symlink target, mode, size and the internal
touched flag stored under key T). -/
structure FileMeta where
  h : Option String := none
  l : Option String := none
  m : Option Nat := none
  s : Option Nat := none
  T : Bool := false

deriving instance DecidableEq for FileMeta

/-- The empty metadata record inserted for a file whose hash is pending. -/
def FileMeta.empty : FileMeta := {}

/-- Sets the touched flag (Python `self.files.setdefault(f, {})['T'] = True`
acts on the record with this). -/
def touchT (d : FileMeta) : FileMeta := { d with T := true }

/-- Equality of the consumer-visible metadata fields, ignoring the internal
touched flag. -/
def sameCore (x y : FileMeta) : Prop :=
  x.h = y.h ∧ x.l = y.l ∧ x.m = y.m ∧ x.s = y.s

/-- Modelled from the spec: the .isolated file format version constant of
isolated_format (not among the sources at hand); the state version below is
the composite of this manifest format version and the state schema
revision suffix. -/
def ISOLATED_FILE_VERSION : String := "1.4"

/-- Modelled from the spec and the source comment: the only supported hash
algorithm name of isolated_format.SUPPORTED_ALGOS is sha-1. -/
def SUPPORTED_ALGOS : List String := ["sha-1"]

/-- Content of a .isolated.state file (SavedState in isolate.py).  The algo
field stores the human-readable algorithm name standing in for the internal
algorithm handle; isolated_basedir is the constructor argument, not a
serialized member. -/
structure SavedState where
  isolated_basedir : String
  OS : String
  algo : String
  child_isolated_files : List String
  command : List String
  config_variables : List (String × JVal)
  extra_variables : List (String × String)
  files : List (String × FileMeta)
  isolate_file : Option String
  path_variables : List (String × String)
  read_only : Option Nat
  relative_cwd : Option String
  root_dir : Option String
  version : String

/-- SavedState.EXPECTED_VERSION of isolate.py. -/
def SavedState.EXPECTED_VERSION : String := ISOLATED_FILE_VERSION ++ ".2"

/-- SavedState.MEMBERS of isolate.py: the serialized field names. -/
def SavedState.MEMBERS : List String :=
  ["OS", "algo", "child_isolated_files", "command", "config_variables",
   "extra_variables", "files", "isolate_file", "path_variables", "read_only",
   "relative_cwd", "root_dir", "version"]

/-- SavedState.__init__: the empty state for a base directory. -/
def SavedState.empty (isolated_basedir : String) : SavedState :=
  { isolated_basedir := isolated_basedir
    OS := sys_platform
    algo := "sha-1"
    child_isolated_files := []
    command := []
    config_variables := []
    extra_variables := []
    files := []
    isolate_file := none
    path_variables := []
    read_only := none
    relative_cwd := none
    root_dir := none
    version := SavedState.EXPECTED_VERSION }

/-- SavedState.update_config: merges configuration variables. -/
def SavedState.update_config (st : SavedState)
    (config_variables : List (String × JVal)) : SavedState :=
  { st with config_variables := dict_update st.config_variables config_variables }

/-- SavedState.update: records the .isolate source path relative to the base
directory and merges path and extra variables.  The two asserts of the
source (isolate_file is absolute; the recorded .isolate file is never
silently retargeted) are modelled as AssertionError results. -/
def SavedState.update (st : SavedState) (isolate_file : String)
    (path_variables extra_variables : List (String × String)) :
    Except PyErr SavedState :=
  if !(os_isabs isolate_file) then .error .assertionError
  else
    let rel := safe_relpath isolate_file st.isolated_basedir
    if (st.isolate_file == some rel) || !(strTruthy st.isolate_file) then
      .ok { st with
        extra_variables := dict_update st.extra_variables extra_variables
        isolate_file := some rel
        path_variables := dict_update st.path_variables path_variables }
    else .error .assertionError

/-- Python `self.files.setdefault(f, {})`. -/
def setdefault_file (m : List (String × FileMeta)) (f : String) :
    List (String × FileMeta) :=
  if hasKey m f then m else m ++ [(f, FileMeta.empty)]

/-- The first loop of update_isolated: `for f in infiles:
self.files.setdefault(f, {})`. -/
def files_add (m : List (String × FileMeta)) (infiles : List String) :
    List (String × FileMeta) :=
  infiles.foldl setdefault_file m

/-- Python `self.files.setdefault(f, {})['T'] = True`. -/
def touch_file (m : List (String × FileMeta)) (f : String) :
    List (String × FileMeta) :=
  (setdefault_file m f).map (fun e => if e.1 = f then (e.1, touchT e.2) else e)

/-- The second loop of update_isolated, over the touched paths. -/
def files_touch (m : List (String × FileMeta)) (touched : List String) :
    List (String × FileMeta) :=
  touched.foldl touch_file m

/-- The pruning loop of update_isolated: delete every file key that is not in
the union of infiles and touched. -/
def files_prune (m : List (String × FileMeta)) (infiles touched : List String) :
    List (String × FileMeta) :=
  m.filter (fun e => strMem infiles e.1 || strMem touched e.1)

/-- SavedState.update_isolated: the diff step.  Adds pending records for new
infiles, marks touched records, prunes stale keys, overwrites command and
relative_cwd, and overwrites read_only only when the argument is not None. -/
def SavedState.update_isolated (st : SavedState) (command : List String)
    (infiles touched : List String) (read_only : Option Nat)
    (relative_cwd : Option String) : SavedState :=
  { st with
    command := command
    files := files_prune (files_touch (files_add st.files infiles) touched)
      infiles touched
    read_only := match read_only with
      | some r => some r
      | none => st.read_only
    relative_cwd := relative_cwd }

/-- An emitted .isolated document.  A none optional field is a key that is
absent from the emitted dict. -/
structure Isolated where
  algo : String
  files : List (String × List (String × JVal))
  version : String
  command : Option (List String) := none
  read_only : Option Nat := none
  relative_cwd : Option String := none
  includes : Option (List String) := none

/-- The strip helper of SavedState.to_isolated: a files entry reduced to the
whitelisted keys h, l, m, s. -/
def strip (d : FileMeta) : List (String × JVal) :=
  (match d.h with | some v => [("h", JVal.str v)] | none => [])
  ++ (match d.l with | some v => [("l", JVal.str v)] | none => [])
  ++ (match d.m with | some v => [("m", JVal.num v)] | none => [])
  ++ (match d.s with | some v => [("s", JVal.num v)] | none => [])

/-- SavedState.to_isolated: the .isolated dictionary of the saved state, with
command, read_only and relative_cwd present only when truthy
(read_only: only when not None). -/
def SavedState.to_isolated (st : SavedState) : Isolated :=
  { algo := st.algo
    files := st.files.map (fun e => (e.1, strip e.2))
    version := ISOLATED_FILE_VERSION
    command := if st.command.isEmpty then none else some st.command
    read_only := st.read_only
    relative_cwd := match st.relative_cwd with
      | some c => if c = "" then none else some c
      | none => none
    includes := none }

/-- The serialized key-value form of an Isolated document: optional fields
that are none contribute no key at all. -/
def isolatedDoc (d : Isolated) : List (String × JVal) :=
  [("algo", JVal.str d.algo),
   ("files", JVal.obj (d.files.map (fun e => (e.1, JVal.obj e.2)))),
   ("version", JVal.str d.version)]
  ++ (match d.command with
      | some c => [("command", JVal.list (c.map JVal.str))] | none => [])
  ++ (match d.read_only with
      | some r => [("read_only", JVal.num r)] | none => [])
  ++ (match d.relative_cwd with
      | some c => [("relative_cwd", JVal.str c)] | none => [])
  ++ (match d.includes with
      | some xs => [("includes", JVal.list (xs.map JVal.str))] | none => [])

/-- The test data subtree name: os.path.join of test, data and the empty
string. -/
def test_data_dir : String := "test" ++ os_path_sep ++ "data" ++ os_path_sep

/-- The extract_into_included_isolated closure of chromium_save_isolated:
moves every file whose path starts with the given string out of the master
document into a fresh child that shares algo and version, appending the
child to the accumulated list when it is non-empty. -/
def extract_into_included_isolated (st : Isolated × List Isolated)
    (pfx : String) : Isolated × List Isolated :=
  let d := st.1
  let extracted := d.files.filter (fun f => strHasPfx pfx f.1)
  let remaining := d.files.filter (fun f => !(strHasPfx pfx f.1))
  if extracted.isEmpty then st
  else ({ d with files := remaining },
        st.2 ++ [{ algo := d.algo, files := extracted, version := d.version }])

/-- chromium_save_isolated: splits the test-data subtree and, when the
PRODUCT_DIR path variable is truthy, the product directory subtree into
child documents, then appends the hash of each child's serialized bytes to
the master document's includes list.  hashFn stands for
isolated_format.hash_file over the bytes written for a child; the returned
pair is the final master document and the children in extraction order. -/
def chromium_save_isolated (data : Isolated)
    (path_variables : List (String × String)) (hashFn : Isolated → String) :
    Isolated × List Isolated :=
  let st := extract_into_included_isolated (data, []) test_data_dir
  let st := match dlookup path_variables "PRODUCT_DIR" with
    | some pd => if pd = "" then st else extract_into_included_isolated st pd
    | none => st
  if st.2.isEmpty then st
  else ({ st.1 with
          includes := some ((st.1.includes.getD []) ++ st.2.map hashFn) },
        st.2)

/-- What the recreate_tree loop body does to one entry. -/
inductive TreeOutcome where
  | skippedSymlink
  | untouchedExisting
  | removedAndRewritten
  | newFile
  | madeSymlink
  | linkedFile

deriving instance DecidableEq for TreeOutcome

/-- Loop body of recreate_tree for one files entry.  existingSize gives the
size of an already existing destination file, none when absent; the result
carries the destination path written to (none when the entry was skipped)
and what happened there.  In as_hash mode a symlink entry is skipped, an
existing hash-named file of matching recorded size is left untouched, and a
size mismatch removes the stale file before linking anew. -/
def recreate_tree_entry (as_hash : Bool) (outdir : String)
    (existingSize : String → Option Nat) (relfile : String)
    (metadata : FileMeta) : Except PyErr (Option String × TreeOutcome) :=
  if as_hash then
    if metadata.l.isSome then .ok (none, .skippedSymlink)
    else match metadata.h with
      | none => .error .keyError
      | some hv =>
        let outfile := os_path_join outdir hv
        match existingSize outfile with
        | some sz =>
          match metadata.s with
          | none => .error .mappingError
          | some sv =>
            if sv = sz then .ok (some outfile, .untouchedExisting)
            else .ok (some outfile, .removedAndRewritten)
        | none => .ok (some outfile, .newFile)
  else
    let outfile := os_path_join outdir relfile
    match metadata.l with
    | some _ => .ok (some outfile, .madeSymlink)
    | none => .ok (some outfile, .linkedFile)

/-- The containment loop of CompleteState.load_isolate: once root_dir is
known, every path variable value joined below the .isolate directory and the
relative cwd must point inside root_dir, else a MappingError is raised. -/
def check_path_variables (root_dir isolate_cmd_dir relative_cwd : String) :
    List (String × String) → Except PyErr Unit
  | [] => .ok ()
  | kv :: rest =>
    if path_starts_with root_dir
        (os_path_join (os_path_join isolate_cmd_dir relative_cwd) kv.2) then
      check_path_variables root_dir isolate_cmd_dir relative_cwd rest
    else .error .mappingError

/-- Lenient decoding of a string-valued member. -/
def decodeStr : JVal → Option String
  | .str s => some s
  | _ => none

/-- Lenient decoding of a number-valued member. -/
def decodeNat : JVal → Option Nat
  | .num n => some n
  | _ => none

/-- Lenient decoding of a list of strings. -/
def decodeStrList : JVal → List String
  | .list xs => xs.filterMap decodeStr
  | _ => []

/-- Lenient decoding of a string-to-string dict. -/
def decodeStrDict : JVal → List (String × String)
  | .obj kvs => kvs.filterMap (fun kv => (decodeStr kv.2).map (fun v => (kv.1, v)))
  | _ => []

/-- Lenient decoding of a files-dict entry into a metadata record. -/
def decodeMeta : JVal → FileMeta
  | .obj kvs =>
    { h := (dlookup kvs "h").bind decodeStr
      l := (dlookup kvs "l").bind decodeStr
      m := (dlookup kvs "m").bind decodeNat
      s := (dlookup kvs "s").bind decodeNat
      T := match dlookup kvs "T" with | some (.bool b) => b | _ => false }
  | _ => {}

/-- Lenient decoding of the files member. -/
def decodeFiles : JVal → List (String × FileMeta)
  | .obj kvs => kvs.map (fun kv => (kv.1, decodeMeta kv.2))
  | _ => []

/-- Lenient decoding of a dict-valued member kept as raw values. -/
def decodeObj : JVal → List (String × JVal)
  | .obj kvs => kvs
  | _ => []

/-- The unknown-entry check of Flattenable.load: after popping every declared
member, any leftover key makes the whole document a ValueError. -/
def flattenable_has_unknown_key (members : List String)
    (data : List (String × JVal)) : Bool :=
  data.any (fun kv => !(strMem members kv.1))

/-- SavedState.isolate_filepath: the absolute path of the recorded .isolate
file. -/
def SavedState.isolate_filepath_of (basedir f : String) : String :=
  normpath (os_path_join basedir f)

/-- SavedState.load (on top of Flattenable.load): reject documents with
unknown keys (ValueError), then reject a foreign OS, an unsupported
algorithm name and a version differing from EXPECTED_VERSION
(IsolatedError), then silently drop a recorded isolate_file that no longer
exists on disk.  The OS and algo checks read the raw document values, as the
source does via data.get; the version check compares the raw version value
against EXPECTED_VERSION, which is what the source's comparison of the
loaded attribute amounts to (an absent version keeps the fresh default and
passes).  The surviving assert (a truthy isolate_file is never absolute on a
posix platform) is modelled as AssertionError.  isfile stands for
os.path.isfile. -/
def SavedState.load (isolated_basedir : String) (isfile : String → Bool)
    (data : List (String × JVal)) : Except PyErr SavedState :=
  if flattenable_has_unknown_key SavedState.MEMBERS data then .error .valueError
  else
    let fresh := SavedState.empty isolated_basedir
    let out : SavedState :=
      { isolated_basedir := isolated_basedir
        OS := ((dlookup data "OS").bind decodeStr).getD fresh.OS
        algo := ((dlookup data "algo").bind decodeStr).getD fresh.algo
        child_isolated_files :=
          ((dlookup data "child_isolated_files").map decodeStrList).getD []
        command := ((dlookup data "command").map decodeStrList).getD []
        config_variables := ((dlookup data "config_variables").map decodeObj).getD []
        extra_variables := ((dlookup data "extra_variables").map decodeStrDict).getD []
        files := ((dlookup data "files").map decodeFiles).getD []
        isolate_file := (dlookup data "isolate_file").bind decodeStr
        path_variables := ((dlookup data "path_variables").map decodeStrDict).getD []
        read_only := (dlookup data "read_only").bind decodeNat
        relative_cwd := (dlookup data "relative_cwd").bind decodeStr
        root_dir := (dlookup data "root_dir").bind decodeStr
        version := ((dlookup data "version").bind decodeStr).getD fresh.version }
    match dlookup data "OS" with
    | some (JVal.str osv) =>
      if osv = sys_platform then
        match dlookup data "algo" with
        | some (JVal.str av) =>
          if strMem SUPPORTED_ALGOS av then
            if (match dlookup data "version" with
                | none => false
                | some (JVal.str v) => v != SavedState.EXPECTED_VERSION
                | some _ => true) then .error .isolatedError
            else
              let out2 :=
                if strTruthy out.isolate_file
                    && !(isfile (SavedState.isolate_filepath_of isolated_basedir
                          (out.isolate_file.getD ""))) then
                  { out with isolate_file := none }
                else out
              if strTruthy out2.isolate_file
                  && os_isabs (out2.isolate_file.getD "") then
                .error .assertionError
              else .ok out2
          else .error .isolatedError
        | _ => .error .isolatedError
      else .error .isolatedError
    | _ => .error .isolatedError

/-- Flattenable.load_file for SavedState: a missing or unparsable file
(content none, standing for IOError) or any ValueError — IsolatedError and
MappingError included, as they subclass it — is recovered by the fresh empty
instance; other exceptions propagate. -/
def SavedState.load_file (isolated_basedir : String) (isfile : String → Bool)
    (content : Option (List (String × JVal))) : Except PyErr SavedState :=
  match content with
  | none => .ok (SavedState.empty isolated_basedir)
  | some data =>
    match SavedState.load isolated_basedir isfile data with
    | .ok st => .ok st
    | .error .valueError => .ok (SavedState.empty isolated_basedir)
    | .error .isolatedError => .ok (SavedState.empty isolated_basedir)
    | .error .mappingError => .ok (SavedState.empty isolated_basedir)
    | .error .keyError => .error .keyError
    | .error .assertionError => .error .assertionError

/-! Basic lemmas about the association-list helpers. -/

theorem map_id_of_mem {α : Type} {f : α → α} :
    ∀ {l : List α}, (∀ a ∈ l, f a = a) → l.map f = l
  | [], _ => rfl
  | a :: l, h => by
    simp only [List.map_cons]
    rw [h a (List.mem_cons_self a l),
      map_id_of_mem (fun b hb => h b (List.mem_cons_of_mem a hb))]

theorem map_congr_mem {α β : Type} {f g : α → β} :
    ∀ {l : List α}, (∀ a ∈ l, f a = g a) → l.map f = l.map g
  | [], _ => rfl
  | a :: l, h => by
    simp only [List.map_cons]
    rw [h a (List.mem_cons_self a l),
      map_congr_mem (fun b hb => h b (List.mem_cons_of_mem a hb))]

theorem strMem_iff {l : List String} {x : String} : strMem l x = true ↔ x ∈ l := by
  induction l with
  | nil => simp [strMem]
  | cons a l ih =>
    by_cases h : a = x
    · subst h; simp [strMem]
    · simp only [strMem, if_neg h, ih, List.mem_cons]
      exact ⟨Or.inr, fun hx => hx.elim (fun hx => absurd hx.symm h) id⟩

theorem dlookup_append_some {α : Type} {a : List (String × α)} {k : String} {v : α}
    (h : dlookup a k = some v) (b : List (String × α)) :
    dlookup (a ++ b) k = some v := by
  induction a with
  | nil => cases h
  | cons e rest ih =>
    by_cases he : e.1 = k
    · simp [dlookup, he] at h ⊢; exact h
    · simp [dlookup, he] at h ⊢; exact ih h

theorem dlookup_append_none {α : Type} {a : List (String × α)} {k : String}
    (h : dlookup a k = none) (b : List (String × α)) :
    dlookup (a ++ b) k = dlookup b k := by
  induction a with
  | nil => rfl
  | cons e rest ih =>
    by_cases he : e.1 = k
    · simp [dlookup, he] at h
    · simp [dlookup, he] at h ⊢; exact ih h

theorem hasKey_append {α : Type} (a b : List (String × α)) (k : String) :
    hasKey (a ++ b) k = (hasKey a k || hasKey b k) := by
  induction a with
  | nil => rfl
  | cons e rest ih =>
    by_cases he : e.1 = k <;> simp [hasKey, he, ih]

theorem hasKey_false_iff {α : Type} {m : List (String × α)} {k : String} :
    hasKey m k = false ↔ ∀ e ∈ m, e.1 ≠ k := by
  induction m with
  | nil => simp [hasKey]
  | cons e rest ih =>
    by_cases he : e.1 = k <;> simp [hasKey, he, ih]

theorem hasKey_true_iff {α : Type} {m : List (String × α)} {k : String} :
    hasKey m k = true ↔ ∃ v, dlookup m k = some v := by
  induction m with
  | nil => simp [hasKey, dlookup]
  | cons e rest ih =>
    by_cases he : e.1 = k <;> simp [hasKey, dlookup, he, ih]

theorem dlookup_none_of_hasKey_false {α : Type} {m : List (String × α)} {k : String}
    (h : hasKey m k = false) : dlookup m k = none := by
  cases hd : dlookup m k with
  | none => rfl
  | some v => rw [hasKey_true_iff.mpr ⟨v, hd⟩] at h; cases h

theorem dlookup_mem {α : Type} {m : List (String × α)} {k : String} {v : α}
    (h : dlookup m k = some v) : (k, v) ∈ m := by
  induction m with
  | nil => cases h
  | cons e rest ih =>
    by_cases he : e.1 = k
    · simp [dlookup, he] at h
      rcases e with ⟨k0, v0⟩
      simp at he; subst he; simp at h; subst h; exact List.mem_cons_self _ _
    · simp [dlookup, he] at h; exact List.mem_cons_of_mem _ (ih h)

/-! C3: recreate_tree in by_content_hash mode. -/

/-- C3: in by_content_hash mode a symlink entry is skipped and writes no
output file; an existing hash-named destination is left untouched exactly
when its size equals the recorded size; on a size mismatch the stale file is
removed and the entry rewritten from the source. -/
theorem recreate_tree_by_content_hash (outdir : String)
    (existingSize : String → Option Nat) (relfile : String) (metadata : FileMeta) :
    (∀ t, metadata.l = some t →
      recreate_tree_entry true outdir existingSize relfile metadata
        = .ok (none, .skippedSymlink)) ∧
    (∀ hv sz, metadata.l = none → metadata.h = some hv →
      existingSize (os_path_join outdir hv) = some sz →
      (recreate_tree_entry true outdir existingSize relfile metadata
          = .ok (some (os_path_join outdir hv), .untouchedExisting)
        ↔ metadata.s = some sz)) ∧
    (∀ hv sz sv, metadata.l = none → metadata.h = some hv →
      existingSize (os_path_join outdir hv) = some sz →
      metadata.s = some sv → sv ≠ sz →
      recreate_tree_entry true outdir existingSize relfile metadata
        = .ok (some (os_path_join outdir hv), .removedAndRewritten)) := by
  refine ⟨fun t ht => by simp [recreate_tree_entry, ht],
    fun hv sz hl hh hex => ?_,
    fun hv sz sv hl hh hex hs hne => ?_⟩
  · cases hs : metadata.s with
    | none => simp [recreate_tree_entry, hl, hh, hex, hs]
    | some sv =>
      by_cases hsv : sv = sz
      · subst hsv; simp [recreate_tree_entry, hl, hh, hex, hs]
      · simp [recreate_tree_entry, hl, hh, hex, hs, hsv]
  · simp [recreate_tree_entry, hl, hh, hex, hs, hne]

/-- Witness for C3 at concrete inputs. -/
theorem recreate_tree_by_content_hash_witness :
    recreate_tree_entry true "/out" (fun _ => some 5) "f"
        { h := some "abc", s := some 5 } = .ok (some "/out/abc", .untouchedExisting) ∧
    recreate_tree_entry true "/out" (fun _ => some 5) "g"
        { l := some "t" } = .ok (none, .skippedSymlink) ∧
    recreate_tree_entry true "/out" (fun _ => some 5) "f2"
        { h := some "abc", s := some 7 } = .ok (some "/out/abc", .removedAndRewritten) := by
  refine ⟨?_, ?_, ?_⟩
  · exact ((recreate_tree_by_content_hash "/out" (fun _ => some 5) "f"
      { h := some "abc", s := some 5 }).2.1 "abc" 5 rfl rfl rfl).mpr rfl
  · exact (recreate_tree_by_content_hash "/out" (fun _ => some 5) "g"
      { l := some "t" }).1 "t" rfl
  · exact (recreate_tree_by_content_hash "/out" (fun _ => some 5) "f2"
      { h := some "abc", s := some 7 }).2.2 "abc" 5 7 rfl rfl rfl rfl (by decide)

/-! C4: update_isolated overwrite semantics. -/

/-- C4 counterexample: with a prior read_only of some 1, calling
update_isolated with a read_only argument of none leaves the old value in
place, so the resulting read_only does not equal the argument passed. -/
theorem update_isolated_read_only_cex :
    ¬ ((SavedState.update_isolated
          { SavedState.empty "/b" with read_only := some 1 } [] [] [] none none).read_only
        = none) := by decide

/-- C4 amended: command and relative_cwd are overwritten wholesale by
update_isolated; read_only is overwritten only when the argument is not
None, and keeps its previous value when the argument is None. -/
theorem update_isolated_overwrite_amended (st : SavedState) (command : List String)
    (infiles touched : List String) (read_only : Option Nat)
    (relative_cwd : Option String) :
    (st.update_isolated command infiles touched read_only relative_cwd).command
        = command ∧
    (st.update_isolated command infiles touched read_only relative_cwd).relative_cwd
        = relative_cwd ∧
    (st.update_isolated command infiles touched read_only relative_cwd).read_only
        = (match read_only with | some r => some r | none => st.read_only) :=
  ⟨rfl, rfl, rfl⟩

/-! C6: path-variable containment in load_isolate. -/

/-- C6: once root_dir is inferred, a path variable resolving outside it makes
the containment loop fail with a MappingError, and when every path variable
resolves inside root_dir the check passes. -/
theorem load_isolate_path_variable_containment
    (root_dir isolate_cmd_dir relative_cwd : String)
    (path_variables : List (String × String)) :
    ((∃ kv, kv ∈ path_variables ∧ path_starts_with root_dir
        (os_path_join (os_path_join isolate_cmd_dir relative_cwd) kv.2) = false) →
      check_path_variables root_dir isolate_cmd_dir relative_cwd path_variables
        = .error .mappingError) ∧
    ((∀ kv ∈ path_variables, path_starts_with root_dir
        (os_path_join (os_path_join isolate_cmd_dir relative_cwd) kv.2) = true) →
      check_path_variables root_dir isolate_cmd_dir relative_cwd path_variables
        = .ok ()) := by
  induction path_variables with
  | nil =>
    exact ⟨fun ⟨kv, hmem, _⟩ => absurd hmem (List.not_mem_nil kv), fun _ => rfl⟩
  | cons e rest ih =>
    constructor
    · rintro ⟨kv, hmem, hbad⟩
      simp only [check_path_variables]
      by_cases hp : path_starts_with root_dir
          (os_path_join (os_path_join isolate_cmd_dir relative_cwd) e.2) = true
      · rw [if_pos hp]
        apply ih.1
        refine ⟨kv, ?_, hbad⟩
        rcases List.mem_cons.mp hmem with rfl | h
        · rw [hbad] at hp; cases hp
        · exact h
      · rw [if_neg hp]
    · intro hall
      simp only [check_path_variables]
      rw [if_pos (hall e (List.mem_cons_self e rest))]
      exact ih.2 (fun kv hk => hall kv (List.mem_cons_of_mem e hk))

/-- Witness for C6 at concrete inputs: a variable pointing outside the root
fails, one pointing inside passes. -/
theorem load_isolate_path_variable_containment_witness :
    check_path_variables "/root" "/root" "." [("k", "/elsewhere")]
        = .error .mappingError ∧
    check_path_variables "/root" "/root" "." [("k", "sub")] = .ok () := by
  constructor
  · exact (load_isolate_path_variable_containment "/root" "/root" "."
      [("k", "/elsewhere")]).1 ⟨("k", "/elsewhere"), by simp, by decide⟩
  · refine (load_isolate_path_variable_containment "/root" "/root" "."
      [("k", "sub")]).2 ?_
    intro kv hkv
    simp at hkv
    subst hkv
    decide

/-! C5: stripping and field omission in to_isolated. -/

theorem strip_keys (d : FileMeta) :
    ∀ kv ∈ strip d, kv.1 ∈ (["h", "l", "m", "s"] : List String) := by
  rcases d with ⟨h, l, m, s, T⟩
  intro kv hkv
  unfold strip at hkv
  cases h <;> cases l <;> cases m <;> cases s <;> simp [] at hkv <;> aesop

theorem isolatedDoc_no_null (d : Isolated) :
    ∀ kv ∈ isolatedDoc d, kv.2 ≠ JVal.null := by
  rcases d with ⟨al, fs, ver, cmd, ro, rc, inc⟩
  intro kv hkv
  cases cmd <;> cases ro <;> cases rc <;> cases inc <;>
    simp [isolatedDoc] at hkv <;> aesop

theorem isolatedDoc_hasKey_command (d : Isolated) :
    hasKey (isolatedDoc d) "command" = true ↔ d.command ≠ none := by
  rcases d with ⟨al, fs, ver, cmd, ro, rc, inc⟩
  cases cmd <;> cases ro <;> cases rc <;> cases inc <;>
    simp [isolatedDoc, hasKey_append, hasKey]

theorem isolatedDoc_hasKey_read_only (d : Isolated) :
    hasKey (isolatedDoc d) "read_only" = true ↔ d.read_only ≠ none := by
  rcases d with ⟨al, fs, ver, cmd, ro, rc, inc⟩
  cases cmd <;> cases ro <;> cases rc <;> cases inc <;>
    simp [isolatedDoc, hasKey_append, hasKey]

theorem isolatedDoc_hasKey_relative_cwd (d : Isolated) :
    hasKey (isolatedDoc d) "relative_cwd" = true ↔ d.relative_cwd ≠ none := by
  rcases d with ⟨al, fs, ver, cmd, ro, rc, inc⟩
  cases cmd <;> cases ro <;> cases rc <;> cases inc <;>
    simp [isolatedDoc, hasKey_append, hasKey]

/-- C5: every per-file entry emitted by to_isolated carries only keys among
h, l, m, s — never the touched flag T or any other bookkeeping field — and
the optional top-level fields are present exactly when set (command iff
non-empty, read_only iff not None, relative_cwd iff truthy), absent fields
being omitted from the document rather than emitted as null. -/
theorem to_isolated_strips_and_omits (st : SavedState) :
    (∀ e ∈ st.to_isolated.files, ∀ kv ∈ e.2,
      kv.1 ∈ (["h", "l", "m", "s"] : List String) ∧ kv.1 ≠ "T") ∧
    (hasKey (isolatedDoc st.to_isolated) "command" = true ↔ st.command ≠ []) ∧
    (hasKey (isolatedDoc st.to_isolated) "read_only" = true ↔ st.read_only ≠ none) ∧
    (hasKey (isolatedDoc st.to_isolated) "relative_cwd" = true
      ↔ strTruthy st.relative_cwd = true) ∧
    (∀ kv ∈ isolatedDoc st.to_isolated, kv.2 ≠ JVal.null) := by
  refine ⟨?_, ?_, ?_, ?_, isolatedDoc_no_null _⟩
  · intro e he kv hkv
    have hmap : st.to_isolated.files = st.files.map (fun e => (e.1, strip e.2)) := rfl
    rw [hmap] at he
    rcases List.mem_map.mp he with ⟨a, _, rfl⟩
    have h1 := strip_keys a.2 kv hkv
    refine ⟨h1, fun hT => ?_⟩
    rw [hT] at h1
    exact absurd h1 (by decide)
  · rw [isolatedDoc_hasKey_command]
    have h2 : st.to_isolated.command
        = (if st.command.isEmpty then none else some st.command) := rfl
    rw [h2]
    cases st.command <;> simp
  · rw [isolatedDoc_hasKey_read_only]
    exact Iff.rfl
  · rw [isolatedDoc_hasKey_relative_cwd]
    have h3 : st.to_isolated.relative_cwd
        = (match st.relative_cwd with
            | some c => if c = "" then none else some c
            | none => none) := rfl
    rw [h3]
    cases hc : st.relative_cwd with
    | none => simp [strTruthy]
    | some c =>
      by_cases hce : c = ""
      · subst hce; simp [strTruthy]
      · simp [strTruthy, hce, bne_iff_ne]

/-! C2: manifest splitting in chromium_save_isolated. -/

theorem extract_fst_files (st : Isolated × List Isolated) (pfx : String) :
    (extract_into_included_isolated st pfx).1.files
      = st.1.files.filter (fun f => !(strHasPfx pfx f.1)) := by
  simp only [extract_into_included_isolated]
  split
  case isTrue he =>
    have hnil := List.isEmpty_iff.mp he
    have hall : ∀ f ∈ st.1.files, strHasPfx pfx f.1 = false := by
      intro f hf
      have := List.filter_eq_nil_iff.mp hnil f hf
      simpa using this
    exact (List.filter_eq_self.mpr (fun a ha => by simp [hall a ha])).symm
  case isFalse he => rfl

theorem extract_fst_immutables (st : Isolated × List Isolated) (pfx : String) :
    (extract_into_included_isolated st pfx).1.algo = st.1.algo ∧
    (extract_into_included_isolated st pfx).1.version = st.1.version ∧
    (extract_into_included_isolated st pfx).1.includes = st.1.includes := by
  simp only [extract_into_included_isolated]
  split <;> simp

theorem extract_snd_cases (st : Isolated × List Isolated) (pfx : String) :
    ((extract_into_included_isolated st pfx).2 = st.2 ∧
      ∀ f ∈ st.1.files, strHasPfx pfx f.1 = false) ∨
    (extract_into_included_isolated st pfx).2
      = st.2 ++ [{ algo := st.1.algo,
                   files := st.1.files.filter (fun f => strHasPfx pfx f.1),
                   version := st.1.version }] := by
  simp only [extract_into_included_isolated]
  split
  case isTrue he =>
    left
    refine ⟨rfl, fun f hf => ?_⟩
    have := List.filter_eq_nil_iff.mp (List.isEmpty_iff.mp he) f hf
    simpa using this
  case isFalse he => right; rfl

theorem extract_snd_of_mem (st : Isolated × List Isolated) (pfx : String)
    (f : String × List (String × JVal)) (hf : f ∈ st.1.files)
    (hp : strHasPfx pfx f.1 = true) :
    (extract_into_included_isolated st pfx).2
      = st.2 ++ [{ algo := st.1.algo,
                   files := st.1.files.filter (fun f => strHasPfx pfx f.1),
                   version := st.1.version }] := by
  rcases extract_snd_cases st pfx with ⟨_, hall⟩ | h
  · rw [hall f hf] at hp; cases hp
  · exact h

theorem chromium_assemble (data : Isolated) (pv : List (String × String))
    (hashFn : Isolated → String) (B : Isolated × List Isolated)
    (hfinal : chromium_save_isolated data pv hashFn
      = (if B.2.isEmpty then B
         else ({ B.1 with
                 includes := some ((B.1.includes.getD []) ++ B.2.map hashFn) },
               B.2)))
    (hBinc : B.1.includes = none)
    (hBchild : ∀ c ∈ B.2, c.algo = data.algo ∧ c.version = data.version ∧
      c.command = none)
    (hBtd : ∀ f ∈ data.files, strHasPfx test_data_dir f.1 = true →
      ∃ c, B.2.head? = some c ∧ f ∈ c.files)
    (hBpd : ∀ pd, dlookup pv "PRODUCT_DIR" = some pd → pd ≠ "" →
      ∀ f ∈ data.files, strHasPfx pd f.1 = true →
        strHasPfx test_data_dir f.1 = false →
        ∃ c ∈ B.2, f ∈ c.files ∧ ∀ g ∈ c.files, strHasPfx pd g.1 = true)
    (hBprim : ∀ f ∈ B.1.files, strHasPfx test_data_dir f.1 = false ∧
      (∀ pd, dlookup pv "PRODUCT_DIR" = some pd → pd ≠ "" →
        strHasPfx pd f.1 = false)) :
    (∀ c ∈ (chromium_save_isolated data pv hashFn).2,
      c.algo = data.algo ∧ c.version = data.version ∧ c.command = none) ∧
    ((chromium_save_isolated data pv hashFn).1.includes.getD []
      = (chromium_save_isolated data pv hashFn).2.map hashFn) ∧
    (∀ f ∈ data.files, strHasPfx test_data_dir f.1 = true →
      ∃ c, (chromium_save_isolated data pv hashFn).2.head? = some c ∧
        f ∈ c.files) ∧
    (∀ pd, dlookup pv "PRODUCT_DIR" = some pd → pd ≠ "" →
      ∀ f ∈ data.files, strHasPfx pd f.1 = true →
        strHasPfx test_data_dir f.1 = false →
        ∃ c ∈ (chromium_save_isolated data pv hashFn).2,
          f ∈ c.files ∧ ∀ g ∈ c.files, strHasPfx pd g.1 = true) ∧
    (∀ f ∈ (chromium_save_isolated data pv hashFn).1.files,
      strHasPfx test_data_dir f.1 = false ∧
      (∀ pd, dlookup pv "PRODUCT_DIR" = some pd → pd ≠ "" →
        strHasPfx pd f.1 = false)) := by
  rw [hfinal]
  by_cases hBe : B.2.isEmpty = true
  · rw [if_pos hBe]
    have hnil := List.isEmpty_iff.mp hBe
    refine ⟨hBchild, ?_, hBtd, hBpd, hBprim⟩
    rw [hBinc, hnil]
    rfl
  · rw [if_neg hBe]
    refine ⟨hBchild, ?_, hBtd, hBpd, hBprim⟩
    rw [hBinc]
    rfl

/-- C2: for a fully hashed document, chromium_save_isolated extracts every
file under the test-data tree into the first child and, when PRODUCT_DIR is
set and truthy, every file under that directory into a further child, in
that order; each child shares algo and version and has no command; the
master document's includes list holds exactly the hash of each child's
serialized bytes in extraction order.  In particular, for the input set of
src/a.txt and test/data/b.txt, the master keeps only src/a.txt and a single
child holds test/data/b.txt whose hash is the sole includes entry. -/
theorem chromium_save_isolated_split (data : Isolated) (pv : List (String × String))
    (hashFn : Isolated → String) (hinc : data.includes = none) :
    ((∀ c ∈ (chromium_save_isolated data pv hashFn).2,
      c.algo = data.algo ∧ c.version = data.version ∧ c.command = none) ∧
    ((chromium_save_isolated data pv hashFn).1.includes.getD []
      = (chromium_save_isolated data pv hashFn).2.map hashFn) ∧
    (∀ f ∈ data.files, strHasPfx test_data_dir f.1 = true →
      ∃ c, (chromium_save_isolated data pv hashFn).2.head? = some c ∧
        f ∈ c.files) ∧
    (∀ pd, dlookup pv "PRODUCT_DIR" = some pd → pd ≠ "" →
      ∀ f ∈ data.files, strHasPfx pd f.1 = true →
        strHasPfx test_data_dir f.1 = false →
        ∃ c ∈ (chromium_save_isolated data pv hashFn).2,
          f ∈ c.files ∧ ∀ g ∈ c.files, strHasPfx pd g.1 = true) ∧
    (∀ f ∈ (chromium_save_isolated data pv hashFn).1.files,
      strHasPfx test_data_dir f.1 = false ∧
      (∀ pd, dlookup pv "PRODUCT_DIR" = some pd → pd ≠ "" →
        strHasPfx pd f.1 = false))) ∧
    (∀ (al ver : String) (mA mB : List (String × JVal)) (hfn : Isolated → String),
      chromium_save_isolated
          { algo := al
            files := [("src/a.txt", mA), ("test/data/b.txt", mB)]
            version := ver } [] hfn
        = ({ algo := al
             files := [("src/a.txt", mA)]
             version := ver
             includes := some [hfn { algo := al
                                     files := [("test/data/b.txt", mB)]
                                     version := ver }] },
           [{ algo := al
              files := [("test/data/b.txt", mB)]
              version := ver }])) := by
  refine And.intro ?_ (fun al ver mA mB hfn => rfl)
  -- facts about the test-data extraction stage
  have hA1f := extract_fst_files (data, []) test_data_dir
  have hAim := extract_fst_immutables (data, []) test_data_dir
  have hRinc : (extract_into_included_isolated (data, []) test_data_dir).1.includes = none := by
    rw [hAim.2.2, hinc]
  have hAchild : ∀ c ∈ (extract_into_included_isolated (data, []) test_data_dir).2,
      c.algo = data.algo ∧ c.version = data.version ∧ c.command = none := by
    intro c hc
    rcases extract_snd_cases (data, []) test_data_dir with ⟨heq, _⟩ | heq <;> rw [heq] at hc
    · cases hc
    · simp at hc
      subst hc
      exact ⟨rfl, rfl, rfl⟩
  have hAtd : ∀ f ∈ data.files, strHasPfx test_data_dir f.1 = true →
      (extract_into_included_isolated (data, []) test_data_dir).2
        = [{ algo := data.algo,
             files := data.files.filter (fun f => strHasPfx test_data_dir f.1),
             version := data.version }] := by
    intro f hf hp
    simpa using extract_snd_of_mem (data, []) test_data_dir f hf hp
  have hAsub : ∀ f ∈ (extract_into_included_isolated (data, []) test_data_dir).1.files,
      f ∈ data.files ∧ strHasPfx test_data_dir f.1 = false := by
    intro f hf
    rw [hA1f] at hf
    have := List.mem_filter.mp hf
    exact ⟨this.1, by simpa using this.2⟩
  have hcases : dlookup pv "PRODUCT_DIR" = none ∨
      ∃ pd, dlookup pv "PRODUCT_DIR" = some pd := by
    cases dlookup pv "PRODUCT_DIR"
    · exact Or.inl rfl
    · exact Or.inr ⟨_, rfl⟩
  rcases hcases with hpd | ⟨pd, hpd⟩
  · -- no PRODUCT_DIR variable
    refine chromium_assemble data pv hashFn
      (extract_into_included_isolated (data, []) test_data_dir) ?_ hRinc hAchild ?_ ?_ ?_
    · simp only [chromium_save_isolated, hpd]
    · intro f hf hp
      exact ⟨_, by rw [hAtd f hf hp]; rfl, List.mem_filter.mpr ⟨hf, hp⟩⟩
    · intro pd hpd2
      rw [hpd] at hpd2
      cases hpd2
    · intro f hf
      refine ⟨(hAsub f hf).2, fun pd hpd2 => ?_⟩
      rw [hpd] at hpd2
      cases hpd2
  · by_cases hpde : pd = ""
    · -- falsy PRODUCT_DIR value
      subst hpde
      refine chromium_assemble data pv hashFn
        (extract_into_included_isolated (data, []) test_data_dir) ?_ hRinc hAchild ?_ ?_ ?_
      · simp [chromium_save_isolated, hpd]
        rw [hpd]
        simp
      · intro f hf hp
        exact ⟨_, by rw [hAtd f hf hp]; rfl, List.mem_filter.mpr ⟨hf, hp⟩⟩
      · intro pd2 hpd2 hne
        rw [hpd] at hpd2
        cases hpd2
        exact absurd rfl hne
      · intro f hf
        refine ⟨(hAsub f hf).2, fun pd2 hpd2 hne => ?_⟩
        rw [hpd] at hpd2
        cases hpd2
        exact absurd rfl hne
    · -- truthy PRODUCT_DIR value: second extraction stage
      have hBim := extract_fst_immutables
        (extract_into_included_isolated (data, []) test_data_dir) pd
      refine chromium_assemble data pv hashFn
        (extract_into_included_isolated
          (extract_into_included_isolated (data, []) test_data_dir) pd) ?_ ?_ ?_ ?_ ?_ ?_
      · simp only [chromium_save_isolated, hpd, if_neg hpde]
      · rw [hBim.2.2, hRinc]
      · intro c hc
        rcases extract_snd_cases
            (extract_into_included_isolated (data, []) test_data_dir) pd with ⟨heq, _⟩ | heq <;>
          rw [heq] at hc
        · exact hAchild c hc
        · rcases List.mem_append.mp hc with h | h
          · exact hAchild c h
          · simp at h
            subst h
            exact ⟨hAim.1, hAim.2.1, rfl⟩
      · intro f hf hp
        have hA2 := hAtd f hf hp
        rcases extract_snd_cases
            (extract_into_included_isolated (data, []) test_data_dir) pd with ⟨heq, _⟩ | heq <;>
          rw [heq, hA2]
        · exact ⟨_, rfl, List.mem_filter.mpr ⟨hf, hp⟩⟩
        · exact ⟨_, rfl, List.mem_filter.mpr ⟨hf, hp⟩⟩
      · intro pd2 hpd2 hne f hf hpdf htdf
        rw [hpd] at hpd2
        cases hpd2
        have hfA : f ∈ (extract_into_included_isolated (data, []) test_data_dir).1.files := by
          rw [hA1f]
          exact List.mem_filter.mpr ⟨hf, by simp [htdf]⟩
        have hB2 := extract_snd_of_mem
          (extract_into_included_isolated (data, []) test_data_dir) pd f hfA hpdf
        rw [hB2]
        refine ⟨_, List.mem_append_right _ (List.mem_singleton_self _), ?_, ?_⟩
        · exact List.mem_filter.mpr ⟨hfA, hpdf⟩
        · intro g hg
          exact (List.mem_filter.mp hg).2
      · intro f hf
        rw [extract_fst_files] at hf
        have h1 := List.mem_filter.mp hf
        refine ⟨(hAsub f h1.1).2, fun pd2 hpd2 hne => ?_⟩
        rw [hpd] at hpd2
        cases hpd2
        simpa using h1.2

/-- Witness for C2 at a concrete input with the hypothesis discharged. -/
theorem chromium_save_isolated_split_witness :
    (chromium_save_isolated
        { algo := "sha-1"
          files := [("src/a.txt", []), ("test/data/b.txt", [])]
          version := "1.4" } [] (fun _ => "H")).1.includes.getD []
      = (chromium_save_isolated
          { algo := "sha-1"
            files := [("src/a.txt", []), ("test/data/b.txt", [])]
            version := "1.4" } [] (fun _ => "H")).2.map (fun _ => "H") :=
  (chromium_save_isolated_split
    { algo := "sha-1"
      files := [("src/a.txt", []), ("test/data/b.txt", [])]
      version := "1.4" } [] (fun _ => "H") rfl).1.2.1

/-! C1: lemmas about the files-map operations of update_isolated. -/

theorem setdefault_of_hasKey {m : List (String × FileMeta)} {f : String}
    (h : hasKey m f = true) : setdefault_file m f = m := by
  unfold setdefault_file
  rw [if_pos h]

theorem hasKey_setdefault (m : List (String × FileMeta)) (f x : String) :
    hasKey (setdefault_file m f) x = true ↔ hasKey m x = true ∨ x = f := by
  unfold setdefault_file
  split
  case isTrue h =>
    constructor
    · exact Or.inl
    · rintro (hx | rfl)
      · exact hx
      · exact h
  case isFalse h =>
    rw [hasKey_append]
    by_cases hx : f = x <;> simp [hasKey, hx]
    exact fun hxf => absurd hxf.symm hx

theorem dlookup_setdefault_ne {m : List (String × FileMeta)} {f x : String}
    (hx : x ≠ f) : dlookup (setdefault_file m f) x = dlookup m x := by
  unfold setdefault_file
  split
  · rfl
  · cases hd : dlookup m x with
    | some v => exact dlookup_append_some hd _
    | none =>
      rw [dlookup_append_none hd]
      try rw [hd]
      simp only [dlookup]
      rw [if_neg (fun hfx => hx hfx.symm)]

theorem dlookup_setdefault_self (m : List (String × FileMeta)) (f : String) :
    dlookup (setdefault_file m f) f
      = some ((dlookup m f).getD FileMeta.empty) := by
  unfold setdefault_file
  split
  case isTrue h =>
    rcases hasKey_true_iff.mp h with ⟨v, hv⟩
    rw [hv]
    rfl
  case isFalse h =>
    have hf : hasKey m f = false := by revert h; cases hasKey m f <;> simp
    have hd := dlookup_none_of_hasKey_false hf
    rw [dlookup_append_none hd, hd]
    simp [dlookup]

theorem hasKey_files_add (m : List (String × FileMeta)) (inf : List String)
    (x : String) :
    hasKey (files_add m inf) x = true ↔ hasKey m x = true ∨ strMem inf x = true := by
  induction inf generalizing m with
  | nil => simp [files_add, strMem]
  | cons f inf ih =>
    show hasKey (files_add (setdefault_file m f) inf) x = true ↔ _
    rw [ih, hasKey_setdefault]
    by_cases hfx : f = x
    · simp [strMem, hfx]
      try tauto
    · have hxf : ¬ x = f := fun h => hfx h.symm
      simp [strMem, hfx, hxf]
      try tauto

theorem dlookup_setdefault_some {m : List (String × FileMeta)} {f x : String}
    {v : FileMeta} (h : dlookup m x = some v) :
    dlookup (setdefault_file m f) x = some v := by
  by_cases hx : x = f
  · subst hx
    rw [dlookup_setdefault_self, h]
    rfl
  · rw [dlookup_setdefault_ne hx, h]

theorem dlookup_files_add_some {m : List (String × FileMeta)} {x : String}
    {v : FileMeta} (h : dlookup m x = some v) (inf : List String) :
    dlookup (files_add m inf) x = some v := by
  induction inf generalizing m with
  | nil => exact h
  | cons f inf ih => exact ih (dlookup_setdefault_some h)

theorem dlookup_files_add_new {m : List (String × FileMeta)} {x : String}
    {inf : List String} (hm : hasKey m x = false) (hx : strMem inf x = true) :
    dlookup (files_add m inf) x = some FileMeta.empty := by
  induction inf generalizing m with
  | nil => cases hx
  | cons f inf ih =>
    by_cases hfx : f = x
    · subst hfx
      have h1 : dlookup (setdefault_file m f) f = some FileMeta.empty := by
        rw [dlookup_setdefault_self, dlookup_none_of_hasKey_false hm]
        rfl
      exact dlookup_files_add_some h1 inf
    · have h2 : hasKey (setdefault_file m f) x = false := by
        cases hk : hasKey (setdefault_file m f) x
        · rfl
        · rcases (hasKey_setdefault m f x).mp hk with h | h
          · rw [hm] at h; cases h
          · exact absurd h.symm hfx
      have h3 : strMem inf x = true := by
        unfold strMem at hx
        rwa [if_neg hfx] at hx
      exact ih h2 h3

theorem dlookup_map_touch (m : List (String × FileMeta)) (f x : String) :
    dlookup (m.map (fun e => if e.1 = f then (e.1, touchT e.2) else e)) x
      = if x = f then (dlookup m x).map touchT else dlookup m x := by
  induction m with
  | nil => by_cases hx : x = f <;> simp [dlookup, hx]
  | cons e rest ih =>
    by_cases hef : e.1 = f
    · by_cases he : e.1 = x
      · have hxf : x = f := he.symm.trans hef
        subst hxf
        simp [dlookup, hef, he]
      · have hxf : ¬ x = f := fun h => he (hef.trans h.symm)
        have hfx : ¬ f = x := fun h => hxf h.symm
        simp [dlookup, hef, he, hxf, hfx, ih]
    · by_cases he : e.1 = x
      · have hxf : ¬ x = f := fun h => hef (he.trans h)
        simp [dlookup, hef, he, hxf]
      · simp [dlookup, hef, he, ih]

theorem dlookup_touch_file_self (m : List (String × FileMeta)) (f : String) :
    dlookup (touch_file m f) f
      = some (touchT ((dlookup m f).getD FileMeta.empty)) := by
  unfold touch_file
  rw [dlookup_map_touch, if_pos rfl, dlookup_setdefault_self]
  rfl

theorem dlookup_touch_file_ne {m : List (String × FileMeta)} {f x : String}
    (hx : x ≠ f) : dlookup (touch_file m f) x = dlookup m x := by
  unfold touch_file
  rw [dlookup_map_touch, if_neg hx, dlookup_setdefault_ne hx]

theorem hasKey_map_touch (m : List (String × FileMeta)) (f x : String) :
    hasKey (m.map (fun e => if e.1 = f then (e.1, touchT e.2) else e)) x
      = hasKey m x := by
  induction m with
  | nil => rfl
  | cons e rest ih =>
    by_cases hef : e.1 = f
    · by_cases he : e.1 = x
      · simp [hasKey, hef, he, ih]
      · have hfx : ¬ f = x := fun h => he (hef.trans h)
        simp [hasKey, hef, he, hfx, ih]
    · by_cases he : e.1 = x
      · have hxf : ¬ x = f := fun h => hef (he.trans h)
        simp [hasKey, hef, he, hxf, ih]
      · simp [hasKey, hef, he, ih]

theorem hasKey_touch_file (m : List (String × FileMeta)) (f x : String) :
    hasKey (touch_file m f) x = true ↔ hasKey m x = true ∨ x = f := by
  unfold touch_file
  rw [hasKey_map_touch, hasKey_setdefault]

theorem hasKey_files_touch (m : List (String × FileMeta)) (t : List String)
    (x : String) :
    hasKey (files_touch m t) x = true ↔ hasKey m x = true ∨ strMem t x = true := by
  induction t generalizing m with
  | nil => simp [files_touch, strMem]
  | cons f t ih =>
    show hasKey (files_touch (touch_file m f) t) x = true ↔ _
    rw [ih, hasKey_touch_file]
    by_cases hfx : f = x
    · simp [strMem, hfx]
      try tauto
    · have hxf : ¬ x = f := fun h => hfx h.symm
      simp [strMem, hfx, hxf]
      try tauto

theorem dlookup_files_touch_not_mem {m : List (String × FileMeta)}
    {t : List String} {x : String} (hx : strMem t x = false) :
    dlookup (files_touch m t) x = dlookup m x := by
  induction t generalizing m with
  | nil => rfl
  | cons f t ih =>
    unfold strMem at hx
    by_cases hfx : f = x
    · rw [if_pos hfx] at hx; cases hx
    · rw [if_neg hfx] at hx
      show dlookup (files_touch (touch_file m f) t) x = _
      rw [ih hx, dlookup_touch_file_ne (fun h => hfx h.symm)]

theorem touchT_touchT (d : FileMeta) : touchT (touchT d) = touchT d := rfl

theorem dlookup_files_touch_mem {m : List (String × FileMeta)}
    {t : List String} {x : String} (hx : strMem t x = true) :
    dlookup (files_touch m t) x
      = some (touchT ((dlookup m x).getD FileMeta.empty)) := by
  induction t generalizing m with
  | nil => cases hx
  | cons f t ih =>
    by_cases hfx : f = x
    · subst hfx
      by_cases ht : strMem t f = true
      · show dlookup (files_touch (touch_file m f) t) f = _
        rw [ih ht, dlookup_touch_file_self]
        simp [touchT_touchT]
      · have ht2 : strMem t f = false := by
          revert ht; cases strMem t f <;> simp
        show dlookup (files_touch (touch_file m f) t) f = _
        rw [dlookup_files_touch_not_mem ht2, dlookup_touch_file_self]
    · have hx2 : strMem t x = true := by
        unfold strMem at hx; rwa [if_neg hfx] at hx
      show dlookup (files_touch (touch_file m f) t) x = _
      rw [ih hx2, dlookup_touch_file_ne (fun h => hfx h.symm)]

theorem dlookup_files_prune_keep {inf t : List String} {x : String}
    (hx : (strMem inf x || strMem t x) = true) (m : List (String × FileMeta)) :
    dlookup (files_prune m inf t) x = dlookup m x := by
  induction m with
  | nil => rfl
  | cons e rest ih =>
    unfold files_prune at ih ⊢
    rw [List.filter_cons]
    by_cases he : e.1 = x
    · rw [if_pos (by simpa [he] using hx)]
      simp [dlookup, he, ih]
    · by_cases hp : (strMem inf e.1 || strMem t e.1) = true
      · rw [if_pos (by simpa using hp)]
        simp [dlookup, he, ih]
      · rw [if_neg (by simpa using hp)]
        simp [dlookup, he, ih]

theorem dlookup_files_prune_drop {inf t : List String} {x : String}
    (hx : (strMem inf x || strMem t x) = false) (m : List (String × FileMeta)) :
    dlookup (files_prune m inf t) x = none := by
  induction m with
  | nil => rfl
  | cons e rest ih =>
    unfold files_prune at ih ⊢
    rw [List.filter_cons]
    by_cases he : e.1 = x
    · rw [if_neg (by simp [he, hx])]
      exact ih
    · by_cases hp : (strMem inf e.1 || strMem t e.1) = true
      · rw [if_pos (by simpa using hp)]
        simp [dlookup, he, ih]
      · rw [if_neg (by simpa using hp)]
        exact ih

theorem hasKey_files_prune (m : List (String × FileMeta)) (inf t : List String)
    (x : String) :
    hasKey (files_prune m inf t) x = true
      ↔ hasKey m x = true ∧ (strMem inf x || strMem t x) = true := by
  constructor
  · intro h
    rcases hasKey_true_iff.mp h with ⟨v, hv⟩
    have hmem := dlookup_mem hv
    have hmem2 := List.mem_filter.mp hmem
    refine ⟨?_, by simpa using hmem2.2⟩
    cases hk : hasKey m x
    · exact absurd (hasKey_false_iff.mp hk (x, v) hmem2.1) (by simp)
    · rfl
  · rintro ⟨h1, h2⟩
    rcases hasKey_true_iff.mp h1 with ⟨v, hv⟩
    exact hasKey_true_iff.mpr ⟨v, by rw [dlookup_files_prune_keep h2, hv]⟩

theorem hasKey_files_update (m : List (String × FileMeta)) (inf t : List String)
    (x : String) :
    hasKey (files_prune (files_touch (files_add m inf) t) inf t) x = true
      ↔ (strMem inf x || strMem t x) = true := by
  rw [hasKey_files_prune, hasKey_files_touch, hasKey_files_add]
  constructor
  · exact fun h => h.2
  · intro h
    refine ⟨?_, h⟩
    rcases Bool.or_eq_true_iff.mp h with h | h
    · exact Or.inl (Or.inr h)
    · exact Or.inr h

/-- C1: starting from a state whose files map holds exactly a, b, c with
their metadata, update_isolated with an infiles/touched union of b, c, d
leaves the map with exactly the keys b, c, d: the entry of a is deleted, the
consumer-visible metadata of b and c is retained (verbatim when the path is
not touched; the touched pass only sets the internal T flag), and d gets an
empty pending record. -/
theorem update_isolated_diff_correct (s : SavedState) (cmd : List String)
    (ro : Option Nat) (rc : Option String) (a b c d : String)
    (ma mb mc : FileMeta)
    (hfiles : s.files = [(a, ma), (b, mb), (c, mc)])
    (hab : a ≠ b) (hac : a ≠ c) (had : a ≠ d)
    (hbc : b ≠ c) (hbd : b ≠ d) (hcd : c ≠ d)
    (infiles touched : List String)
    (hunion : ∀ x, (strMem infiles x || strMem touched x) = true
      ↔ (x = b ∨ x = c ∨ x = d)) :
    (∀ x, hasKey (s.update_isolated cmd infiles touched ro rc).files x = true
      ↔ (x = b ∨ x = c ∨ x = d)) ∧
    dlookup (s.update_isolated cmd infiles touched ro rc).files a = none ∧
    (∃ mb2, dlookup (s.update_isolated cmd infiles touched ro rc).files b
        = some mb2 ∧ sameCore mb2 mb) ∧
    (strMem touched b = false →
      dlookup (s.update_isolated cmd infiles touched ro rc).files b = some mb) ∧
    (∃ mc2, dlookup (s.update_isolated cmd infiles touched ro rc).files c
        = some mc2 ∧ sameCore mc2 mc) ∧
    (strMem touched c = false →
      dlookup (s.update_isolated cmd infiles touched ro rc).files c = some mc) ∧
    (∃ md2, dlookup (s.update_isolated cmd infiles touched ro rc).files d
        = some md2 ∧ sameCore md2 FileMeta.empty) := by
  have hr : (s.update_isolated cmd infiles touched ro rc).files
      = files_prune (files_touch (files_add [(a, ma), (b, mb), (c, mc)] infiles)
          touched) infiles touched := by
    show files_prune (files_touch (files_add s.files infiles) touched)
        infiles touched = _
    rw [hfiles]
  have hQb : (strMem infiles b || strMem touched b) = true :=
    (hunion b).mpr (Or.inl rfl)
  have hQc : (strMem infiles c || strMem touched c) = true :=
    (hunion c).mpr (Or.inr (Or.inl rfl))
  have hQd : (strMem infiles d || strMem touched d) = true :=
    (hunion d).mpr (Or.inr (Or.inr rfl))
  have hQa : (strMem infiles a || strMem touched a) = false := by
    cases hq : (strMem infiles a || strMem touched a)
    · rfl
    · rcases (hunion a).mp hq with h | h | h
      · exact absurd h hab
      · exact absurd h hac
      · exact absurd h had
  have hma : dlookup [(a, ma), (b, mb), (c, mc)] b = some mb := by
    simp [dlookup, hab]
  have hmc : dlookup [(a, ma), (b, mb), (c, mc)] c = some mc := by
    simp [dlookup, hac, hbc]
  have hKd : hasKey [(a, ma), (b, mb), (c, mc)] d = false := by
    simp [hasKey, had, hbd, hcd]
  refine ⟨?_, ?_, ?_, ?_, ?_, ?_, ?_⟩
  · intro x
    rw [hr, hasKey_files_update]
    exact hunion x
  · rw [hr]
    exact dlookup_files_prune_drop hQa _
  · rw [hr, dlookup_files_prune_keep hQb]
    cases ht : strMem touched b
    · rw [dlookup_files_touch_not_mem ht, dlookup_files_add_some hma]
      exact ⟨mb, rfl, ⟨rfl, rfl, rfl, rfl⟩⟩
    · rw [dlookup_files_touch_mem ht, dlookup_files_add_some hma]
      exact ⟨touchT mb, by simp, ⟨rfl, rfl, rfl, rfl⟩⟩
  · intro ht
    rw [hr, dlookup_files_prune_keep hQb, dlookup_files_touch_not_mem ht,
      dlookup_files_add_some hma]
  · rw [hr, dlookup_files_prune_keep hQc]
    cases ht : strMem touched c
    · rw [dlookup_files_touch_not_mem ht, dlookup_files_add_some hmc]
      exact ⟨mc, rfl, ⟨rfl, rfl, rfl, rfl⟩⟩
    · rw [dlookup_files_touch_mem ht, dlookup_files_add_some hmc]
      exact ⟨touchT mc, by simp, ⟨rfl, rfl, rfl, rfl⟩⟩
  · intro ht
    rw [hr, dlookup_files_prune_keep hQc, dlookup_files_touch_not_mem ht,
      dlookup_files_add_some hmc]
  · rw [hr, dlookup_files_prune_keep hQd]
    cases hdi : strMem infiles d
    · have ht : strMem touched d = true := by
        have h2 := hQd
        rw [hdi] at h2
        simpa using h2
      have hnone : dlookup (files_add [(a, ma), (b, mb), (c, mc)] infiles) d
          = none := by
        apply dlookup_none_of_hasKey_false
        cases hk : hasKey (files_add [(a, ma), (b, mb), (c, mc)] infiles) d
        · rfl
        · rcases (hasKey_files_add _ _ _).mp hk with h | h
          · rw [hKd] at h; cases h
          · rw [hdi] at h; cases h
      rw [dlookup_files_touch_mem ht, hnone]
      exact ⟨touchT FileMeta.empty, by simp, ⟨rfl, rfl, rfl, rfl⟩⟩
    · have hadd : dlookup (files_add [(a, ma), (b, mb), (c, mc)] infiles) d
          = some FileMeta.empty := dlookup_files_add_new hKd hdi
      cases ht : strMem touched d
      · rw [dlookup_files_touch_not_mem ht, hadd]
        exact ⟨FileMeta.empty, rfl, ⟨rfl, rfl, rfl, rfl⟩⟩
      · rw [dlookup_files_touch_mem ht, hadd]
        exact ⟨touchT FileMeta.empty, by simp, ⟨rfl, rfl, rfl, rfl⟩⟩

/-- Witness for C1 at concrete inputs. -/
theorem update_isolated_diff_correct_witness :
    dlookup ((SavedState.update_isolated
        { SavedState.empty "/b" with
            files := [("a", { h := some "ha", s := some 1 }),
                      ("b", { h := some "hb", s := some 2 }),
                      ("c", { h := some "hc", s := some 3 })] }
        [] ["b", "c", "d"] [] none none).files) "a" = none ∧
    dlookup ((SavedState.update_isolated
        { SavedState.empty "/b" with
            files := [("a", { h := some "ha", s := some 1 }),
                      ("b", { h := some "hb", s := some 2 }),
                      ("c", { h := some "hc", s := some 3 })] }
        [] ["b", "c", "d"] [] none none).files) "b"
      = some { h := some "hb", s := some 2 } ∧
    (∃ md2, dlookup ((SavedState.update_isolated
        { SavedState.empty "/b" with
            files := [("a", { h := some "ha", s := some 1 }),
                      ("b", { h := some "hb", s := some 2 }),
                      ("c", { h := some "hc", s := some 3 })] }
        [] ["b", "c", "d"] [] none none).files) "d"
      = some md2 ∧ sameCore md2 FileMeta.empty) := by
  have H := update_isolated_diff_correct
    { SavedState.empty "/b" with
        files := [("a", { h := some "ha", s := some 1 }),
                  ("b", { h := some "hb", s := some 2 }),
                  ("c", { h := some "hc", s := some 3 })] }
    [] none none "a" "b" "c" "d"
    { h := some "ha", s := some 1 } { h := some "hb", s := some 2 }
    { h := some "hc", s := some 3 } rfl
    (by decide) (by decide) (by decide) (by decide) (by decide) (by decide)
    ["b", "c", "d"] []
    (by
      intro x
      simp [strMem_iff])
  exact ⟨H.2.1, H.2.2.2.1 rfl, H.2.2.2.2.2.2⟩

/-! C9: idempotence of the SavedState update operations. -/

/-- Value of the last binding of a key in an update list. -/
def lastVal {α : Type} : List (String × α) → String → Option α
  | [], _ => none
  | kv :: rest, k =>
    match lastVal rest k with
    | some v => some v
    | none => if kv.1 = k then some kv.2 else none

theorem hasKey_map_keyfix {α : Type} (g : String × α → String × α)
    (hg : ∀ e, (g e).1 = e.1) (m : List (String × α)) (x : String) :
    hasKey (m.map g) x = hasKey m x := by
  induction m with
  | nil => rfl
  | cons e rest ih =>
    show hasKey (g e :: rest.map g) x = _
    unfold hasKey
    rw [hg e, ih]

theorem hasKey_dict_set {α : Type} (m : List (String × α)) (k x : String)
    (v : α) :
    hasKey (dict_set m k v) x = true ↔ hasKey m x = true ∨ x = k := by
  unfold dict_set
  split
  case isTrue h =>
    rw [hasKey_map_keyfix _ (fun e => by by_cases he : e.1 = k <;> simp [he])]
    constructor
    · exact Or.inl
    · rintro (hx | rfl)
      · exact hx
      · exact h
  case isFalse h =>
    rw [hasKey_append]
    by_cases hx : k = x <;> simp [hasKey, hx]
    exact fun hxk => absurd hxk.symm hx

theorem dict_set_mem_key {α : Type} {m : List (String × α)} {k : String}
    {v : α} : ∀ e ∈ dict_set m k v, e.1 = k → e = (k, v) := by
  intro e he hek
  unfold dict_set at he
  split at he
  case isTrue h =>
    rcases List.mem_map.mp he with ⟨e0, he0, rfl⟩
    by_cases h0 : e0.1 = k
    · rw [if_pos h0]
    · rw [if_neg h0] at hek ⊢
      exact absurd hek h0
  case isFalse h =>
    rcases List.mem_append.mp he with h1 | h1
    · exact absurd hek (hasKey_false_iff.mp (by revert h; cases hasKey m k <;> simp) e h1)
    · simpa using h1

theorem dict_set_mem_ne {α : Type} {m : List (String × α)} {k : String}
    {v : α} : ∀ e ∈ dict_set m k v, e.1 ≠ k → e ∈ m := by
  intro e he hek
  unfold dict_set at he
  split at he
  case isTrue h =>
    rcases List.mem_map.mp he with ⟨e0, he0, rfl⟩
    by_cases h0 : e0.1 = k
    · rw [if_pos h0] at hek
      exact absurd rfl hek
    · rwa [if_neg h0]
  case isFalse h =>
    rcases List.mem_append.mp he with h1 | h1
    · exact h1
    · simp at h1
      rw [h1] at hek
      exact absurd rfl hek

theorem hasKey_dict_update_mono {α : Type} {m : List (String × α)}
    {x : String} (h : hasKey m x = true) (u : List (String × α)) :
    hasKey (dict_update m u) x = true := by
  induction u generalizing m with
  | nil => exact h
  | cons kv u ih =>
    show hasKey (dict_update (dict_set m kv.1 kv.2) u) x = true
    exact ih ((hasKey_dict_set _ _ _ _).mpr (Or.inl h))

theorem hasKey_dict_update_of_mem {α : Type} {u : List (String × α)}
    {kv : String × α} (h : kv ∈ u) (m : List (String × α)) :
    hasKey (dict_update m u) kv.1 = true := by
  induction u generalizing m with
  | nil => cases h
  | cons kv0 u ih =>
    show hasKey (dict_update (dict_set m kv0.1 kv0.2) u) kv.1 = true
    rcases List.mem_cons.mp h with rfl | h1
    · exact hasKey_dict_update_mono
        ((hasKey_dict_set _ _ _ _).mpr (Or.inr rfl)) u
    · exact ih h1 _

theorem lastVal_eq_none {α : Type} {u : List (String × α)} {k : String} :
    lastVal u k = none ↔ ∀ kv ∈ u, kv.1 ≠ k := by
  induction u with
  | nil => simp [lastVal]
  | cons kv0 u ih =>
    unfold lastVal
    cases hl : lastVal u k with
    | some w =>
      simp only []
      constructor
      · intro h; cases h
      · intro h
        have := ih.mpr (fun kv2 h2 => h kv2 (List.mem_cons_of_mem _ h2))
        rw [hl] at this; cases this
    | none =>
      by_cases h0 : kv0.1 = k
      · simp [h0]
      · simp only [h0, if_neg h0]
        simp only [List.mem_cons, forall_eq_or_imp]
        constructor
        · intro _
          exact ⟨h0, fun kv2 h2 => ih.mp hl kv2 h2⟩
        · intro _
          rfl

theorem dict_update_no_key {α : Type} {u : List (String × α)} {k : String}
    (h : ∀ kv ∈ u, kv.1 ≠ k) :
    ∀ (m : List (String × α)), ∀ e ∈ dict_update m u, e.1 = k → e ∈ m := by
  induction u with
  | nil => intro m e he _; exact he
  | cons kv0 u ih =>
    intro m e he hek
    have h0 : kv0.1 ≠ k := h kv0 (List.mem_cons_self _ _)
    have he2 : e ∈ dict_set m kv0.1 kv0.2 :=
      ih (fun kv2 h2 => h kv2 (List.mem_cons_of_mem _ h2)) (dict_set m kv0.1 kv0.2) e he hek
    exact dict_set_mem_ne e he2 (fun hh => h0 (hh ▸ hek))

theorem dict_update_lastVal {α : Type} {u : List (String × α)} {k : String}
    {v : α} (h : lastVal u k = some v) :
    ∀ (m : List (String × α)), ∀ e ∈ dict_update m u, e.1 = k → e = (k, v) := by
  induction u with
  | nil => cases h
  | cons kv0 u ih =>
    intro m e he hek
    unfold lastVal at h
    cases hl : lastVal u k with
    | some w =>
      rw [hl] at h
      simp only [Option.some.injEq] at h
      subst h
      exact ih hl (dict_set m kv0.1 kv0.2) e he hek
    | none =>
      rw [hl] at h
      by_cases h0 : kv0.1 = k
      · rw [if_pos h0] at h
        simp only [Option.some.injEq] at h
        have he2 : e ∈ dict_set m kv0.1 kv0.2 :=
          dict_update_no_key (lastVal_eq_none.mp hl) (dict_set m kv0.1 kv0.2) e he hek
        have := dict_set_mem_key e he2 (h0 ▸ hek)
        rw [this, h0, h]
      · rw [if_neg h0] at h
        cases h

theorem lastVal_cons {α : Type} (kv0 : String × α) (u : List (String × α))
    (x : String) :
    lastVal (kv0 :: u) x
      = match lastVal u x with
        | some v => some v
        | none => if kv0.1 = x then some kv0.2 else none := rfl

theorem dict_update_map_form {α : Type} {u : List (String × α)} :
    ∀ (m : List (String × α)), (∀ kv ∈ u, hasKey m kv.1 = true) →
    dict_update m u
      = m.map (fun e =>
          match lastVal u e.1 with
          | some v => (e.1, v)
          | none => e) := by
  induction u with
  | nil =>
    intro m _
    exact (map_id_of_mem (fun a _ => rfl)).symm
  | cons kv0 u ih =>
    intro m hm
    have h0 : hasKey m kv0.1 = true := hm kv0 (List.mem_cons_self _ _)
    have hset : dict_set m kv0.1 kv0.2
        = m.map (fun e => if e.1 = kv0.1 then (kv0.1, kv0.2) else e) := by
      unfold dict_set
      rw [if_pos h0]
    have hkeys2 : ∀ kv ∈ u,
        hasKey (dict_set m kv0.1 kv0.2) kv.1 = true := by
      intro kv hkv
      exact (hasKey_dict_set _ _ _ _).mpr
        (Or.inl (hm kv (List.mem_cons_of_mem _ hkv)))
    show dict_update (dict_set m kv0.1 kv0.2) u = _
    rw [ih _ hkeys2, hset, List.map_map]
    apply map_congr_mem
    intro e _
    by_cases hek : e.1 = kv0.1
    · cases hl : lastVal u e.1 with
      | some w =>
        rw [hek] at hl
        simp [lastVal_cons, hek, hl]
      | none =>
        rw [hek] at hl
        simp [lastVal_cons, hek, hl]
    · have hke : ¬ kv0.1 = e.1 := fun hh => hek hh.symm
      cases hl : lastVal u e.1 with
      | some w => simp [lastVal_cons, hek, hl]
      | none => simp [lastVal_cons, hek, hl, hke]

theorem dict_update_idem {α : Type} (m u : List (String × α)) :
    dict_update (dict_update m u) u = dict_update m u := by
  have hkeys : ∀ kv ∈ u, hasKey (dict_update m u) kv.1 = true :=
    fun kv hkv => hasKey_dict_update_of_mem hkv m
  rw [dict_update_map_form _ hkeys]
  apply map_id_of_mem
  intro e he
  cases hl : lastVal u e.1 with
  | none => rfl
  | some v =>
    show (e.1, v) = e
    exact (dict_update_lastVal hl m e he rfl).symm

theorem strMem_cons_self (f : String) (t : List String) :
    strMem (f :: t) f = true := by
  simp [strMem]

theorem strMem_cons_of {t : List String} {x : String}
    (h : strMem t x = true) (f : String) : strMem (f :: t) x = true := by
  unfold strMem
  split
  · rfl
  · exact h

theorem files_add_noop {m : List (String × FileMeta)} {inf : List String}
    (h : ∀ f, strMem inf f = true → hasKey m f = true) :
    files_add m inf = m := by
  induction inf with
  | nil => rfl
  | cons f inf ih =>
    show files_add (setdefault_file m f) inf = m
    rw [setdefault_of_hasKey (h f (strMem_cons_self f inf))]
    exact ih (fun f2 hf2 => h f2 (strMem_cons_of hf2 f))

theorem touch_file_noop {m : List (String × FileMeta)} {f : String}
    (hk : hasKey m f = true) (hT : ∀ e ∈ m, e.1 = f → e.2.T = true) :
    touch_file m f = m := by
  unfold touch_file
  rw [setdefault_of_hasKey hk]
  apply map_id_of_mem
  intro e he
  by_cases hef : e.1 = f
  · rw [if_pos hef]
    have hT2 : e.2.T = true := hT e he hef
    rcases e with ⟨k, ⟨eh, el, em, es, eT⟩⟩
    have hT3 : eT = true := hT2
    subst hT3
    rfl
  · rw [if_neg hef]

theorem files_touch_noop {m : List (String × FileMeta)} {t : List String}
    (hk : ∀ f, strMem t f = true → hasKey m f = true)
    (hT : ∀ f, strMem t f = true → ∀ e ∈ m, e.1 = f → e.2.T = true) :
    files_touch m t = m := by
  induction t with
  | nil => rfl
  | cons f t ih =>
    show files_touch (touch_file m f) t = m
    rw [touch_file_noop (hk f (strMem_cons_self f t)) (hT f (strMem_cons_self f t))]
    exact ih (fun f2 h2 => hk f2 (strMem_cons_of h2 f))
      (fun f2 h2 => hT f2 (strMem_cons_of h2 f))

theorem touch_file_sets_T (m : List (String × FileMeta)) (f : String) :
    ∀ e ∈ touch_file m f, e.1 = f → e.2.T = true := by
  intro e he hef
  unfold touch_file at he
  rcases List.mem_map.mp he with ⟨e0, he0, rfl⟩
  by_cases h0 : e0.1 = f
  · simp [h0, touchT]
  · rw [if_neg h0] at hef
    exact absurd hef h0

theorem touch_file_pres_T {m : List (String × FileMeta)} {x f : String}
    (hp : ∀ e ∈ m, e.1 = x → e.2.T = true) :
    ∀ e ∈ touch_file m f, e.1 = x → e.2.T = true := by
  intro e he hex
  unfold touch_file at he
  rcases List.mem_map.mp he with ⟨e0, he0, rfl⟩
  by_cases h0 : e0.1 = f
  · simp [h0, touchT]
  · rw [if_neg h0] at hex ⊢
    unfold setdefault_file at he0
    split at he0
    · exact hp e0 he0 hex
    · rcases List.mem_append.mp he0 with h1 | h1
      · exact hp e0 h1 hex
      · simp at h1
        rw [h1] at h0
        exact absurd rfl h0
theorem files_touch_pres_T (t : List String) (x : String) :
    ∀ (m : List (String × FileMeta)), (∀ e ∈ m, e.1 = x → e.2.T = true) →
    ∀ e ∈ files_touch m t, e.1 = x → e.2.T = true := by
  induction t with
  | nil => intro m hp; exact hp
  | cons f t ih =>
    intro m hp
    exact ih (touch_file m f) (touch_file_pres_T hp)

theorem files_touch_entry_T : ∀ (t : List String) (x : String),
    strMem t x = true → ∀ (m : List (String × FileMeta)),
    ∀ e ∈ files_touch m t, e.1 = x → e.2.T = true := by
  intro t
  induction t with
  | nil => intro x hx; cases hx
  | cons f t ih =>
    intro x hx m
    by_cases hfx : f = x
    · subst hfx
      exact files_touch_pres_T t f (touch_file m f) (touch_file_sets_T m f)
    · have hx2 : strMem t x = true := by
        unfold strMem at hx
        rwa [if_neg hfx] at hx
      exact ih x hx2 (touch_file m f)

theorem files_prune_idem (m : List (String × FileMeta)) (inf t : List String) :
    files_prune (files_prune m inf t) inf t = files_prune m inf t :=
  List.filter_eq_self.mpr (fun _ he => (List.mem_filter.mp he).2)

theorem files_update_idem (m : List (String × FileMeta)) (inf t : List String) :
    files_prune (files_touch (files_add
        (files_prune (files_touch (files_add m inf) t) inf t) inf) t) inf t
      = files_prune (files_touch (files_add m inf) t) inf t := by
  have hkeys : ∀ x, (strMem inf x || strMem t x) = true →
      hasKey (files_prune (files_touch (files_add m inf) t) inf t) x = true :=
    fun x hx => (hasKey_files_update m inf t x).mpr hx
  rw [files_add_noop (fun f hf => hkeys f (by simp [hf]))]
  rw [files_touch_noop (fun f hf => hkeys f (by simp [hf]))
      (fun f hf e he hef =>
        files_touch_entry_T t f hf _ e (List.mem_filter.mp he).1 hef)]
  exact files_prune_idem _ _ _

theorem update_config_idem (s : SavedState) (cv : List (String × JVal)) :
    (s.update_config cv).update_config cv = s.update_config cv := by
  unfold SavedState.update_config
  simp [dict_update_idem]

theorem saved_update_idem {s s1 : SavedState} {isolf : String}
    {pv ev : List (String × String)}
    (h : SavedState.update s isolf pv ev = .ok s1) :
    SavedState.update s1 isolf pv ev = .ok s1 := by
  unfold SavedState.update at h ⊢
  by_cases habs : (!(os_isabs isolf)) = true
  · rw [if_pos habs] at h
    cases h
  · rw [if_neg habs] at h
    rw [if_neg habs]
    by_cases hcond : ((s.isolate_file == some (safe_relpath isolf s.isolated_basedir))
        || !(strTruthy s.isolate_file)) = true
    · rw [if_pos hcond] at h
      simp only [Except.ok.injEq] at h
      subst h
      simp [strTruthy, dict_update_idem]
    · rw [if_neg hcond] at h
      cases h

theorem update_isolated_idem (s : SavedState) (cmd inf t : List String)
    (ro : Option Nat) (rc : Option String) :
    (s.update_isolated cmd inf t ro rc).update_isolated cmd inf t ro rc
      = s.update_isolated cmd inf t ro rc := by
  unfold SavedState.update_isolated
  cases ro <;> simp [files_update_idem]

/-- C9: each of the three update operations on SavedState is idempotent:
whenever one application succeeds, a second application with the same
arguments leaves the state unchanged (and, for update, succeeds again). -/
theorem saved_state_updates_idempotent :
    (∀ (s : SavedState) (cv : List (String × JVal)),
      (s.update_config cv).update_config cv = s.update_config cv) ∧
    (∀ (s s1 : SavedState) (isolf : String) (pv ev : List (String × String)),
      SavedState.update s isolf pv ev = .ok s1 →
      SavedState.update s1 isolf pv ev = .ok s1) ∧
    (∀ (s : SavedState) (cmd inf t : List String) (ro : Option Nat)
        (rc : Option String),
      (s.update_isolated cmd inf t ro rc).update_isolated cmd inf t ro rc
        = s.update_isolated cmd inf t ro rc) :=
  ⟨update_config_idem,
   fun _ _ _ _ _ h => saved_update_idem h,
   update_isolated_idem⟩

/-- Witness for C9: a successful update applied a second time at concrete
inputs returns the same state. -/
theorem saved_state_updates_idempotent_witness :
    SavedState.update
        { SavedState.empty "/b" with
            isolate_file := some "x.isolate"
            path_variables := [("K", "v")]
            extra_variables := [("E", "w")] }
        "/b/x.isolate" [("K", "v")] [("E", "w")]
      = Except.ok
        { SavedState.empty "/b" with
            isolate_file := some "x.isolate"
            path_variables := [("K", "v")]
            extra_variables := [("E", "w")] } :=
  saved_state_updates_idempotent.2.1 (SavedState.empty "/b")
    { SavedState.empty "/b" with
        isolate_file := some "x.isolate"
        path_variables := [("K", "v")]
        extra_variables := [("E", "w")] }
    "/b/x.isolate" [("K", "v")] [("E", "w")] rfl

/-! C7, C8, C10: loading and validating a persisted state document. -/

theorem load_cases (b : String) (isf : String → Bool)
    (data : List (String × JVal)) :
    SavedState.load b isf data = .error .valueError ∨
    SavedState.load b isf data = .error .isolatedError ∨
    ((isErr (SavedState.load b isf data) = true →
        SavedState.load b isf data = .error .assertionError) ∧
      dlookup data "OS" = some (JVal.str sys_platform) ∧
      (∃ a, dlookup data "algo" = some (JVal.str a) ∧
        strMem SUPPORTED_ALGOS a = true) ∧
      (∀ v, dlookup data "version" = some v →
        v = JVal.str SavedState.EXPECTED_VERSION)) := by
  simp only [SavedState.load]
  split
  · exact Or.inl rfl
  split
  · -- OS arm matched some (JVal.str osv)
    rename_i osv hOS
    split
    · -- osv = sys_platform
      rename_i hosp
      split
      · -- algo arm matched some (JVal.str av)
        rename_i av halgo
        split
        · -- algo supported
          rename_i hsup
          split
          · -- version mismatch
            exact Or.inr (Or.inl rfl)
          · -- version matches: zap and assert stage
            rename_i hver
            refine Or.inr (Or.inr ⟨?_, ?_, ⟨av, halgo, hsup⟩, ?_⟩)
            · intro hErr
              revert hErr
              split
              · split
                · intro _; rfl
                · intro hErr; simp [isErr] at hErr
              · split
                · intro _; rfl
                · intro hErr; simp [isErr] at hErr
            · rw [hOS, hosp]
            · intro v hv
              rw [hv] at hver
              cases v with
              | str vv =>
                simp at hver
                rw [hver]
              | null => simp at hver
              | bool x => simp at hver
              | num x => simp at hver
              | list x => simp at hver
              | obj x => simp at hver
        · exact Or.inr (Or.inl rfl)
      · exact Or.inr (Or.inl rfl)
    · exact Or.inr (Or.inl rfl)
  · exact Or.inr (Or.inl rfl)

/-- C7: a persisted state document whose recorded OS differs from the current
platform, whose algorithm name is unsupported, or whose version string
differs from the expected composite version fails SavedState.load with an
error, and load_file recovers from any such validation failure by returning
the fresh empty SavedState, never reusing fields of the rejected document. -/
theorem saved_state_load_validation (basedir : String) (isfile : String → Bool)
    (data : List (String × JVal))
    (hbad : (∃ os, dlookup data "OS" = some (JVal.str os) ∧ os ≠ sys_platform) ∨
      (∃ a, dlookup data "algo" = some (JVal.str a) ∧
        strMem SUPPORTED_ALGOS a = false) ∨
      (∃ v, dlookup data "version" = some (JVal.str v) ∧
        v ≠ SavedState.EXPECTED_VERSION)) :
    isErr (SavedState.load basedir isfile data) = true ∧
    SavedState.load_file basedir isfile (some data)
      = .ok (SavedState.empty basedir) := by
  rcases load_cases basedir isfile data with h | h | ⟨_, hOS, ⟨a2, ha2, hs2⟩, hv2⟩
  · refine ⟨by rw [h]; rfl, ?_⟩
    simp only [SavedState.load_file]
    rw [h]
  · refine ⟨by rw [h]; rfl, ?_⟩
    simp only [SavedState.load_file]
    rw [h]
  · exfalso
    rcases hbad with ⟨os, ho, hne⟩ | ⟨a, ha, hsf⟩ | ⟨v, hv, hne⟩
    · have h2 := ho.symm.trans hOS
      simp only [Option.some.injEq, JVal.str.injEq] at h2
      exact hne h2
    · have h2 := ha.symm.trans ha2
      simp only [Option.some.injEq, JVal.str.injEq] at h2
      rw [h2] at hsf
      rw [hsf] at hs2
      cases hs2
    · have h2 := hv2 (JVal.str v) hv
      simp only [JVal.str.injEq] at h2
      exact hne h2

/-- Witness for C7: a document recorded on another OS is rejected and
load_file yields the empty state. -/
theorem saved_state_load_validation_witness :
    isErr (SavedState.load "/b" (fun _ => false) [("OS", JVal.str "win32")])
      = true ∧
    SavedState.load_file "/b" (fun _ => false) (some [("OS", JVal.str "win32")])
      = .ok (SavedState.empty "/b") :=
  saved_state_load_validation "/b" (fun _ => false) [("OS", JVal.str "win32")]
    (Or.inl ⟨"win32", rfl, by decide⟩)

/-- C10: a state document holding any key outside the declared member list
fails Flattenable.load for SavedState with a ValueError instead of silently
ignoring the key, and load_file treats it like a corrupt file, returning the
fresh empty instance. -/
theorem flattenable_load_unknown_key (basedir k : String) (v : JVal)
    (isfile : String → Bool) (data : List (String × JVal))
    (hmem : (k, v) ∈ data) (hk : strMem SavedState.MEMBERS k = false) :
    SavedState.load basedir isfile data = .error .valueError ∧
    SavedState.load_file basedir isfile (some data)
      = .ok (SavedState.empty basedir) := by
  have hu : flattenable_has_unknown_key SavedState.MEMBERS data = true := by
    unfold flattenable_has_unknown_key
    exact List.any_eq_true.mpr ⟨(k, v), hmem, by simp [hk]⟩
  have hload : SavedState.load basedir isfile data = .error .valueError := by
    unfold SavedState.load
    rw [if_pos hu]
  refine ⟨hload, ?_⟩
  simp only [SavedState.load_file]
  rw [hload]

/-- Witness for C10 at a concrete document with a bogus key. -/
theorem flattenable_load_unknown_key_witness :
    SavedState.load "/b" (fun _ => false) [("bogus", JVal.null)]
      = .error .valueError ∧
    SavedState.load_file "/b" (fun _ => false) (some [("bogus", JVal.null)])
      = .ok (SavedState.empty "/b") :=
  flattenable_load_unknown_key "/b" "bogus" JVal.null (fun _ => false)
    [("bogus", JVal.null)] (List.mem_cons_self _ _) (by decide)

/-- C8: a document that passes the OS, algorithm and version checks but
whose recorded isolate_file no longer exists on disk loads successfully with
the stale reference silently dropped to None, rather than aborting. -/
theorem saved_state_load_drops_stale_isolate_file (basedir p : String)
    (isfile : String → Bool) (data : List (String × JVal))
    (hkeys : flattenable_has_unknown_key SavedState.MEMBERS data = false)
    (hOS : dlookup data "OS" = some (JVal.str sys_platform))
    (halgo : ∃ a, dlookup data "algo" = some (JVal.str a) ∧
      strMem SUPPORTED_ALGOS a = true)
    (hver : dlookup data "version" = none ∨
      dlookup data "version" = some (JVal.str SavedState.EXPECTED_VERSION))
    (hif : dlookup data "isolate_file" = some (JVal.str p))
    (hp : p ≠ "")
    (hmissing : isfile (SavedState.isolate_filepath_of basedir p) = false) :
    (SavedState.load basedir isfile data).map (fun st => st.isolate_file)
      = .ok none := by
  obtain ⟨a, ha, hsup⟩ := halgo
  rcases hver with hv | hv <;>
    simp [SavedState.load, hkeys, hOS, ha, hsup, hif, hv, hmissing,
      strTruthy, decodeStr, hp, Except.map]

/-- Witness for C8 at a concrete document whose isolate_file is gone. -/
theorem saved_state_load_drops_stale_isolate_file_witness :
    (SavedState.load "/b" (fun _ => false)
        [("OS", JVal.str "linux2"), ("algo", JVal.str "sha-1"),
         ("version", JVal.str "1.4.2"),
         ("isolate_file", JVal.str "gone.isolate")]).map
      (fun st => st.isolate_file) = .ok none :=
  saved_state_load_drops_stale_isolate_file "/b" "gone.isolate"
    (fun _ => false)
    [("OS", JVal.str "linux2"), ("algo", JVal.str "sha-1"),
     ("version", JVal.str "1.4.2"), ("isolate_file", JVal.str "gone.isolate")]
    (by decide) rfl ⟨"sha-1", rfl, by decide⟩ (Or.inr rfl) rfl (by decide) rfl
